import Mathlib

/-!
Verification of the sudoku.js engine (top-quark/sudoku.js).

The JavaScript source is shallowly embedded: the mutable 81-cell array
`currState` becomes an explicit `List Int` threaded through the
operations, JavaScript numbers become `Int`, strings become `List Char`,
and the depth-first search becomes a fuel-indexed recursive function
returning the final grid, the threaded callback context, the returned
value and the list of solution snapshots passed to the callback.
`Math.random`-driven shuffling is modelled by an oracle `Nat → Nat`
supplying the random draw of each successive call, reduced modulo the
current bound exactly as `Math.floor(Math.random() * (c + 1))` is a
value in `0..c`.
-/

namespace SudokuJS

/-- Embeds `getEnclosingSquare`: the indices of the 3x3 square enclosing
`idx`, row-major within the square. -/
def getEnclosingSquare (idx : Nat) : List Nat :=
  let x := idx % 9 - idx % 9 % 3
  let y := idx / 9 - idx / 9 % 3
  (List.range 3).flatMap fun i => (List.range 3).map fun j => x + j + (y + i) * 9

/-- Embeds `getEnclosingSquareRef`: `(col/3)*3 + (row/3)` (note the
transposed formula, `x*3 + y` with `x` derived from the column). -/
def getEnclosingSquareRef (idx : Nat) : Nat :=
  idx % 9 / 3 * 3 + idx / 9 / 3

/-- The `midpoints` table: centre points of each 3x3 square. -/
def midpoints : List Nat := [10, 37, 64, 13, 40, 67, 16, 43, 70]

/-- The `squares` table, built from `midpoints` as in the source. -/
def squares : List (List Nat) := midpoints.map getEnclosingSquare

/-- The `rows` table: `rows[i][j] = 9*i + j`. -/
def rows : List (List Nat) :=
  (List.range 9).map fun i => (List.range 9).map fun j => 9 * i + j

/-- The `columns` table: `columns[i][j] = 9*j + i`. -/
def columns : List (List Nat) :=
  (List.range 9).map fun i => (List.range 9).map fun j => 9 * j + i

/-- A grid is the `currState` array: one `Int` per cell. -/
abbrev Grid := List Int

/-- Reading `currState[i]` (cells start as 0). -/
def cell (g : Grid) (i : Nat) : Int := g.getD i 0

/-- Embeds `initState`: an 81-cell grid of zeros. -/
def initState : Grid := List.replicate 81 0

/-- The source's `rows[Math.floor(index / 9)]` lookup. -/
def rowList (i : Nat) : List Nat := rows.getD (i / 9) []

/-- The source's `columns[index % 9]` lookup. -/
def colList (i : Nat) : List Nat := columns.getD (i % 9) []

/-- The source's `squares[getEnclosingSquareRef(index)]` lookup. -/
def sqList (i : Nat) : List Nat := squares.getD (getEnclosingSquareRef i) []

/-- The body of `getPossible`'s inner loop: scans the enclosing square
(via the `squares` table), the row (`j + rowNo * 9`) and the column
(`j * 9 + colNo`) for the candidate value `v`. -/
def possAt (g : Grid) (i : Nat) (v : Int) : Bool :=
  (List.range 9).all fun j =>
    cell g ((sqList i).getD j 0) != v &&
    cell g (j + i / 9 * 9) != v &&
    cell g (j * 9 + i % 9) != v

/-- Embeds `getPossible`: the list of values possible at `index`, built
by scanning the enclosing square, the current row and the current
column. -/
def getPossible (g : Grid) (index : Int) : List Int :=
  if index < 0 || 81 ≤ index then []
  else if cell g index.toNat ≠ 0 then [cell g index.toNat]
  else
    ((List.range' 1 9).map fun n : Nat => (n : Int)).filterMap fun v =>
      if possAt g index.toNat v then some v else none

/-- Embeds `isPossible`: whether placing `testValue` at `index` keeps the
row, column and square duplicate-free (the cell at `index` itself is
excluded from the scan). -/
def isPossible (g : Grid) (testValue : Int) (index : Nat) : Bool :=
  let row := rowList index
  let col := colList index
  let square := sqList index
  (List.range 9).all fun i =>
    !(row.getD i 0 != index && cell g (row.getD i 0) == testValue) &&
    !(col.getD i 0 != index && cell g (col.getD i 0) == testValue) &&
    !(square.getD i 0 != index && cell g (square.getD i 0) == testValue)

/-- The state loaded by `initFromString`: non-digit characters are
replaced by `'0'`, then each character code minus `'0'` is stored. -/
def parseState (s : List Char) : Grid :=
  (s.map fun c => if c.isDigit then c else '0').map fun c => (c.toNat : Int) - 48

/-- The sanity check of `initFromString`: every nonzero loaded value
passes `isPossible` at its own index. -/
def checkState (ng : Grid) : Bool :=
  (List.range 81).all fun i => cell ng i == 0 || isPossible ng (cell ng i) i

/-- Embeds `initFromString`: rejects strings whose length is not 81,
replaces non-digit characters by `'0'`, loads the 81 values, and keeps
the old state if a loaded value conflicts with its row, column or
square. -/
def initFromString (old : Grid) (s : List Char) : Bool × Grid :=
  if s.length ≠ 81 then (false, old)
  else if checkState (parseState s) then (true, parseState s)
  else (false, old)

/-- Embeds `exportGame`: joins the cell values and replaces `'0'` by
`'.'`. -/
def exportGame (g : Grid) : List Char :=
  ((g.map fun v => (toString v).data).flatten).map fun c =>
    if c = '0' then '.' else c

/-- Embeds `importGame`: `initState()` followed by `initFromString(s)`.
The prior grid `old` is discarded by the `initState` call. -/
def importGame (old : Grid) (s : List Char) : Bool × Grid :=
  initFromString initState s

/-- Embeds `add`: stores `v` at `idx` when `v` is `0` or `isPossible`
accepts it; otherwise leaves the grid alone. -/
def add (g : Grid) (v : Int) (idx : Nat) : Bool × Grid :=
  if v == 0 || isPossible g v idx then (true, g.set idx v) else (false, g)

/-! ## Spec-side notions: groups and the core invariant -/

/-- Two cell indices share a row. -/
def SameRow (i j : Nat) : Prop := i / 9 = j / 9

/-- Two cell indices share a column. -/
def SameCol (i j : Nat) : Prop := i % 9 = j % 9

/-- Two cell indices share a 3x3 box (the true enclosing box: same band
of three rows and same stack of three columns). -/
def SameBox (i j : Nat) : Prop := i / 27 = j / 27 ∧ i % 9 / 3 = j % 9 / 3

/-- Two cell indices share a row, a column, or a 3x3 box. -/
def SameGroup (i j : Nat) : Prop := SameRow i j ∨ SameCol i j ∨ SameBox i j

instance (i j : Nat) : Decidable (SameRow i j) := by unfold SameRow; infer_instance
instance (i j : Nat) : Decidable (SameCol i j) := by unfold SameCol; infer_instance
instance (i j : Nat) : Decidable (SameBox i j) := by unfold SameBox; infer_instance
instance (i j : Nat) : Decidable (SameGroup i j) := by unfold SameGroup; infer_instance

/-- The core grid invariant: distinct cells sharing a group never hold
the same nonzero value. -/
def PairwiseValid (g : Grid) : Prop :=
  ∀ i < 81, ∀ j < 81, i ≠ j → SameGroup i j →
    cell g i ≠ 0 → cell g j ≠ 0 → cell g i ≠ cell g j

/-- Executable version of `PairwiseValid`, for evaluating it on concrete
grids. -/
def pairwiseValidB (g : Grid) : Bool :=
  (List.range 81).all fun i => (List.range 81).all fun j =>
    !(decide (i ≠ j) && decide (SameGroup i j) &&
      !(cell g i == 0) && !(cell g j == 0) && (cell g i == cell g j))

/-- Whether value `v` appears in no cell (of the 81) sharing a row,
column, or box with index `i`. -/
def freeAt (g : Grid) (i : Nat) (v : Int) : Bool :=
  (List.range 81).all fun j => !(decide (SameGroup i j) && (cell g j == v))

/-- Spec-side candidate computation, written from the specification's
words: a value `v` in `1..9` is a candidate for an empty in-range cell
iff it appears in no cell of the index's row, column, or enclosing box;
a filled cell yields the singleton of its value; an out-of-range index
yields the empty list. -/
def specCandidates (g : Grid) (index : Int) : List Int :=
  if index < 0 || 81 ≤ index then []
  else if cell g index.toNat ≠ 0 then [cell g index.toNat]
  else
    ((List.range' 1 9).map fun n : Nat => (n : Int)).filterMap fun v =>
      if freeAt g index.toNat v then some v else none

/-- The code-side validity invariant: every nonzero cell passes the
code's own `isPossible` check at its index. -/
def validG (g : Grid) : Prop :=
  ∀ i < 81, cell g i ≠ 0 → isPossible g (cell g i) i = true

/-! ## The search engine, shuffling, and the public operations -/

/-- A JavaScript value as far as the search engine observes it: the
search compares the callback result against the literal `false` with
strict equality. -/
inductive JSVal where
  | bool : Bool → JSVal
  | num : Int → JSVal
  | null : JSVal
  | undef : JSVal
deriving DecidableEq

/-- One swap of `shuffle`'s loop body: `t = a[c]; a[c] = a[r]; a[r] = t`. -/
def swapIdx {α : Type} [Inhabited α] (l : List α) (c r : Nat) : List α :=
  (l.set c (l.getD r default)).set r (l.getD c default)

/-- The loop of `shuffle`, counting `c` down to 1; `ρ` is the random
oracle and `k` the index of the next draw. -/
def shuffleGo {α : Type} [Inhabited α] (ρ : Nat → Nat) : Nat → Nat → List α → List α × Nat
  | 0, k, l => (l, k)
  | c + 1, k, l => shuffleGo ρ c (k + 1) (swapIdx l (c + 1) (ρ k % (c + 2)))

/-- Embeds `shuffle` (Fisher-Yates): swaps position `c` with a random
position `r ≤ c` for `c` from `length-1` down to 1. -/
def shuffle {α : Type} [Inhabited α] (ρ : Nat → Nat) (k : Nat) (l : List α) : List α × Nat :=
  shuffleGo ρ (l.length - 1) k l

/-- The advancing loop of `depthFirst`, by recursion on the distance to
cell 81. -/
def advanceGo (g : Grid) : Nat → Nat → Nat
  | 0, index => index
  | n + 1, index => if index < 81 ∧ cell g index ≠ 0 then advanceGo g n (index + 1) else index

/-- The advancing loop of `depthFirst`: skip already-solved cells. -/
def advance (g : Grid) (index : Nat) : Nat := advanceGo g (81 - index) index

/-- Result of a `depthFirst` run: the final grid, the threaded callback
context, the value the call returned, the next random-draw index, and
the solution snapshots passed to the callback (in order). -/
structure DfsOut (σ : Type) where
  g : Grid
  ctx : σ
  ret : JSVal
  k : Nat
  trace : List Grid

/-- The candidate loop of `depthFirst`, parametric in the recursive call
`rec`: place `poss[k]` at `index`, recurse at `index + 1`, always reset
the cell to 0, and break when the recursion returned the literal
`false`. -/
def dfsLoopF {σ : Type} (rec : Nat → Grid → σ → Nat → DfsOut σ) (index : Nat) :
    Grid → σ → Nat → JSVal → List Int → DfsOut σ
  | g, ctx, k, ret, [] => ⟨g, ctx, ret, k, []⟩
  | g, ctx, k, _, v :: rest =>
    let out := rec (index + 1) (g.set index v) ctx k
    let g' := out.g.set index 0
    if out.ret = JSVal.bool false then ⟨g', out.ctx, out.ret, out.k, out.trace⟩
    else
      let out2 := dfsLoopF rec index g' out.ctx out.k out.ret rest
      ⟨out2.g, out2.ctx, out2.ret, out2.k, out.trace ++ out2.trace⟩

/-- Embeds `depthFirst`, with fuel making the recursion structural (any
fuel at least `82 - index` gives the source's behaviour; callers use 82
from index 0): advance past solved cells, call the callback with a
snapshot at 81, otherwise loop over the (possibly shuffled) candidate
list. -/
def dfsGo {σ : Type} (ρ : Nat → Nat) (random : Bool) (cb : Grid → σ → σ × JSVal) :
    Nat → Nat → Grid → σ → Nat → DfsOut σ
  | 0, _, g, ctx, k => ⟨g, ctx, JSVal.undef, k, []⟩
  | fuel + 1, index, g, ctx, k =>
    let a := advance g index
    if a = 81 then
      let r := cb g ctx
      ⟨g, r.1, r.2, k, [g]⟩
    else
      let poss := getPossible g (a : Int)
      let pk := if random then shuffle ρ k poss else (poss, k)
      dfsLoopF (fun i g' c k' => dfsGo ρ random cb fuel i g' c k') a g ctx pk.2 JSVal.undef pk.1

/-- Embeds `findAll`: run the search from index 0 on the current grid. -/
def findAll {σ : Type} (g : Grid) (random : Bool) (ρ : Nat → Nat) (k : Nat) (ctx : σ)
    (cb : Grid → σ → σ × JSVal) : DfsOut σ :=
  dfsGo ρ random cb 82 0 g ctx k

/-- The callback used by `solve`, `hint` and `design`'s first phase:
store the solution and return `false` to stop. -/
def solveCb : Grid → Option Grid → Option Grid × JSVal :=
  fun a _ => (some a, JSVal.bool false)

/-- The uniqueness-check callback: `return (++ctx.solutions < 2)`. -/
def countCb : Grid → Nat → Nat × JSVal :=
  fun _ n => (n + 1, JSVal.bool (decide (n + 1 < 2)))

/-- Embeds `solve`: deterministic search for a first solution; on
success the live grid becomes the solution and its export is returned,
otherwise null is returned and the grid is as the search left it. -/
def solve (g : Grid) : Option (List Char) × Grid :=
  let out := dfsGo (fun _ => 0) false solveCb 82 0 g none 0
  match out.ctx with
  | some sol => (some (exportGame sol), sol)
  | none => (none, out.g)

/-- One iteration of `design`'s hole-punching loop: back up the grid
(`saveState = cur`), hole `idx1` and `idx2 = 80 - idx1` in the live
grid, count solutions stopping at 2 (the search restores the holed
grid), and commit the holes to the backup exactly when the count is 1;
the live grid then becomes the backup. -/
def designStep (ρ : Nat → Nat) (cur : Grid) (idx1 : Nat) : Grid :=
  if (dfsGo ρ false countCb 82 0 ((cur.set (80 - idx1) 0).set idx1 0) 0 0).ctx = 1
  then (cur.set (80 - idx1) 0).set idx1 0
  else cur

/-- Embeds `design`'s `while (positions.length)` loop: pop `idx1` from
the end, run one hole-punching step, and drop `idx2` from the remaining
positions. -/
def designLoop (ρ : Nat → Nat) : Nat → Grid → List Nat → Grid
  | 0, cur, _ => cur
  | fuel + 1, cur, positions =>
    match positions.getLast? with
    | none => cur
    | some idx1 =>
      designLoop ρ fuel (designStep ρ cur idx1) (positions.dropLast.erase (80 - idx1))

/-- Embeds `design`: random solution to the empty grid, shuffled
position list, hole-punching loop, exported result. Returns `none` when
the initial search finds no solution (where the JavaScript would crash
dereferencing `undefined`). -/
def design (ρ : Nat → Nat) : Option (List Char) :=
  let out := dfsGo ρ true solveCb 82 0 initState none 0
  match out.ctx with
  | none => none
  | some solution =>
    let pk := shuffle ρ out.k (List.range 81)
    some (exportGame (designLoop ρ 81 solution pk.1))

/-! ## Spec-side notions for the search -/

/-- The candidate loop of the pure enumeration `sols`, parametric in the
recursive call. -/
def solsLoopF (recS : Nat → Grid → Nat → List Grid × Nat) (index : Nat) (g : Grid) :
    List Int → Nat → List Grid × Nat
  | [], k => ([], k)
  | v :: rest, k =>
    let r1 := recS (index + 1) (g.set index v) k
    let r2 := solsLoopF recS index g rest r1.2
    (r1.1 ++ r2.1, r2.2)

/-- The pure enumeration of the search tree: the list of completed-grid
snapshots the search would pass to a callback that never stops, in
search order, with the random-draw counter threaded identically. -/
def sols (ρ : Nat → Nat) (random : Bool) : Nat → Nat → Grid → Nat → List Grid × Nat
  | 0, _, _, k => ([], k)
  | fuel + 1, index, g, k =>
    let a := advance g index
    if a = 81 then ([g], k)
    else
      let poss := getPossible g (a : Int)
      let pk := if random then shuffle ρ k poss else (poss, k)
      solsLoopF (fun i g' k' => sols ρ random fuel i g' k') a g pk.1 pk.2

/-- The deterministic enumeration from index 0 (what `solve` and the
uniqueness checks traverse). -/
def solsDet (g : Grid) : List Grid := (sols (fun _ => 0) false 82 0 g 0).1

/-- Result of feeding a solution list to a callback: the consumed
prefix, the final context, and whether the callback stopped the run by
returning the literal `false`. -/
structure DriveOut (σ : Type) where
  trace : List Grid
  ctx : σ
  stopped : Bool

/-- Spec-side model of callback-controlled consumption: process
solutions in order and stop exactly after the first one for which the
callback returns the literal `false` sentinel (any other value — `true`,
numbers, `null`, `undefined` — continues). -/
def drive {σ : Type} (cb : Grid → σ → σ × JSVal) : σ → List Grid → DriveOut σ
  | ctx, [] => ⟨[], ctx, false⟩
  | ctx, s :: rest =>
    let r := cb s ctx
    if r.2 = JSVal.bool false then ⟨[s], r.1, true⟩
    else
      let d := drive cb r.1 rest
      ⟨s :: d.trace, d.ctx, d.stopped⟩

/-- A completed assignment extending `g`: 81 cells, all in `1..9`,
satisfying the core group invariant, and agreeing with `g` on every
nonzero cell of `g`. -/
def Completion (g e : Grid) : Prop :=
  e.length = 81 ∧ (∀ i < 81, 1 ≤ cell e i ∧ cell e i ≤ 9) ∧ PairwiseValid e ∧
    ∀ i < 81, cell g i ≠ 0 → cell e i = cell g i

/-- The uniqueness check of the spec: run `findAll` with the counting
callback stopping at a second solution, and read off the count. -/
def uniquenessCount (g : Grid) : Nat :=
  (findAll g false (fun _ => 0) 0 0 countCb).ctx

/-- Whether an exported encoding is palindromically paired: every hole
at `idx` has a hole at `80 - idx`. -/
def symPaired (s : List Char) : Bool :=
  (List.range 81).all fun idx => !(s.getD idx ' ' == '.') || (s.getD (80 - idx) ' ' == '.')

/-- Symmetric holes on a grid: every empty cell's mirror cell is empty. -/
def HoleSym (g : Grid) : Prop := ∀ i < 81, cell g i = 0 → cell g (80 - i) = 0

/-- The invariant `design`'s hole-punching loop maintains on the live
grid: 81 cells in 0..9 satisfying the core invariant, exactly one
enumerated solution, and symmetric holes. -/
def DesignInv (g : Grid) : Prop :=
  g.length = 81 ∧ (∀ i < 81, 0 ≤ cell g i ∧ cell g i ≤ 9) ∧ PairwiseValid g ∧
    (solsDet g).length = 1 ∧ HoleSym g

/-- A concrete completed valid grid, used to instantiate existence
arguments and witnesses. -/
def fullGrid : Grid :=
  [1, 2, 3, 4, 5, 6, 7, 8, 9,
   4, 5, 6, 7, 8, 9, 1, 2, 3,
   7, 8, 9, 1, 2, 3, 4, 5, 6,
   2, 3, 4, 5, 6, 7, 8, 9, 1,
   5, 6, 7, 8, 9, 1, 2, 3, 4,
   8, 9, 1, 2, 3, 4, 5, 6, 7,
   3, 4, 5, 6, 7, 8, 9, 1, 2,
   6, 7, 8, 9, 1, 2, 3, 4, 5,
   9, 1, 2, 3, 4, 5, 6, 7, 8]

/-! ## Lemmas -/

lemma pairwiseValid_iff (g : Grid) : pairwiseValidB g = true ↔ PairwiseValid g := by
  unfold pairwiseValidB PairwiseValid
  simp only [List.all_eq_true, List.mem_range]
  constructor
  · intro h i hi j hj hij hsg h0i h0j heq
    have := h i hi j hj
    simp only [Bool.and_eq_true, Bool.not_eq_true', Bool.and_eq_false_iff,
      decide_eq_false_iff_not, beq_iff_eq, Bool.not_eq_false', Bool.not_eq_true] at this
    rcases this with ((((h1 | h2) | h3) | h4) | h5)
    · exact h1 hij
    · exact h2 hsg
    · exact h0i (by simpa using h3)
    · exact h0j (by simpa using h4)
    · exact absurd heq (by simpa using h5)
  · intro h i hi j hj
    by_cases hij : i = j
    · simp [hij]
    · by_cases hsg : SameGroup i j
      · by_cases h0i : cell g i = 0
        · simp [h0i]
        · by_cases h0j : cell g j = 0
          · simp [h0j]
          · have := h i hi j hj hij hsg h0i h0j
            simp [hij, hsg, h0i, h0j, this]
      · simp [hij, hsg]

lemma freeAt_iff (g : Grid) (i : Nat) (v : Int) :
    freeAt g i v = true ↔ ∀ j < 81, SameGroup i j → cell g j ≠ v := by
  unfold freeAt
  simp only [List.all_eq_true, List.mem_range, Bool.not_eq_true', Bool.and_eq_false_iff,
    decide_eq_false_iff_not, beq_eq_false_iff_ne, ne_eq]
  constructor
  · intro h j hj hsg
    rcases h j hj with h1 | h2
    · exact absurd hsg h1
    · exact h2
  · intro h j hj
    by_cases hsg : SameGroup i j
    · exact Or.inr (h j hj hsg)
    · exact Or.inl hsg

/-! ## Bridging the precomputed tables to the arithmetic group relations -/

lemma rowList_eq : ∀ i < 81, rowList i = (List.range 9).map fun t => i / 9 * 9 + t := by
  decide

lemma colList_eq : ∀ i < 81, colList i = (List.range 9).map fun t => t * 9 + i % 9 := by
  decide

lemma sqList_eq : ∀ i < 81, sqList i =
    (List.range 9).map fun t => i / 27 * 27 + i % 9 / 3 * 3 + t / 3 * 9 + t % 3 := by
  decide

lemma getD_map_range (f : Nat → Nat) {t : Nat} (ht : t < 9) :
    (((List.range 9).map f).getD t 0) = f t := by
  simp [List.getD_eq_getElem?_getD, List.getElem?_map, List.getElem?_range, ht]

lemma rowList_getD {i t : Nat} (hi : i < 81) (ht : t < 9) :
    (rowList i).getD t 0 = i / 9 * 9 + t := by
  rw [rowList_eq i hi]; exact getD_map_range _ ht

lemma colList_getD {i t : Nat} (hi : i < 81) (ht : t < 9) :
    (colList i).getD t 0 = t * 9 + i % 9 := by
  rw [colList_eq i hi]; exact getD_map_range _ ht

lemma sqList_getD {i t : Nat} (hi : i < 81) (ht : t < 9) :
    (sqList i).getD t 0 = i / 27 * 27 + i % 9 / 3 * 3 + t / 3 * 9 + t % 3 := by
  rw [sqList_eq i hi]; exact getD_map_range _ ht

/-- The scan performed by `getPossible` for a candidate value covers
exactly the cells sharing a row, column, or box with the cell. -/
lemma scan_iff (g : Grid) {i : Nat} (hi : i < 81) (v : Int) :
    (∀ t < 9, cell g ((sqList i).getD t 0) ≠ v ∧
      cell g (t + i / 9 * 9) ≠ v ∧ cell g (t * 9 + i % 9) ≠ v) ↔
    ∀ j < 81, SameGroup i j → cell g j ≠ v := by
  constructor
  · intro h j hj hsg
    rcases hsg with hr | hc | hb
    · have ht : j % 9 < 9 := Nat.mod_lt _ (by norm_num)
      have := (h (j % 9) ht).2.1
      have hidx : j % 9 + i / 9 * 9 = j := by
        unfold SameRow at hr; omega
      rwa [hidx] at this
    · have ht : j / 9 < 9 := by omega
      have := (h (j / 9) ht).2.2
      have hidx : j / 9 * 9 + i % 9 = j := by
        unfold SameCol at hc; omega
      rwa [hidx] at this
    · unfold SameBox at hb
      obtain ⟨hb1, hb2⟩ := hb
      have ht : j / 9 % 3 * 3 + j % 3 < 9 := by omega
      have := (h (j / 9 % 3 * 3 + j % 3) ht).1
      rw [sqList_getD hi ht] at this
      have hidx : i / 27 * 27 + i % 9 / 3 * 3 +
          (j / 9 % 3 * 3 + j % 3) / 3 * 9 + (j / 9 % 3 * 3 + j % 3) % 3 = j := by
        omega
      rwa [hidx] at this
  · intro h t ht
    refine ⟨?_, ?_, ?_⟩
    · rw [sqList_getD hi ht]
      apply h _ (by omega)
      refine Or.inr (Or.inr ?_)
      unfold SameBox
      constructor <;> omega
    · apply h _ (by omega)
      refine Or.inl ?_
      unfold SameRow
      omega
    · apply h _ (by omega)
      refine Or.inr (Or.inl ?_)
      unfold SameCol
      omega

/-- Helper: pointwise-equal functions give equal `filterMap`s. -/
lemma filterMap_congr_on {α β : Type} {l : List α} {f f' : α → Option β}
    (h : ∀ a ∈ l, f a = f' a) : l.filterMap f = l.filterMap f' := by
  induction l with
  | nil => rfl
  | cons a l ih =>
    simp only [List.filterMap_cons]
    rw [h a (by simp), ih fun b hb => h b (by simp [hb])]

/-- For in-range indices the code's inner scan agrees with the spec-side
occurrence check. -/
lemma possAt_eq_freeAt (g : Grid) {i : Nat} (hi : i < 81) (v : Int) :
    possAt g i v = freeAt g i v := by
  rw [Bool.eq_iff_iff, freeAt_iff]
  unfold possAt
  simp only [List.all_eq_true, List.mem_range, Bool.and_eq_true, bne_iff_ne, ne_eq]
  rw [← scan_iff g hi v]
  constructor
  · intro h t ht
    obtain ⟨⟨h1, h2⟩, h3⟩ := h t ht
    exact ⟨h1, h2, h3⟩
  · intro h t ht
    obtain ⟨h1, h2, h3⟩ := h t ht
    exact ⟨⟨h1, h2⟩, h3⟩

/-- `getPossible` computes exactly the spec-side candidate list. -/
lemma getPossible_eq (g : Grid) (index : Int) :
    getPossible g index = specCandidates g index := by
  unfold getPossible specCandidates
  by_cases hout : (decide (index < 0) || decide ((81 : Int) ≤ index)) = true
  · rw [if_pos hout, if_pos hout]
  · rw [if_neg hout, if_neg hout]
    have hout' : ¬index < 0 ∧ ¬(81 : Int) ≤ index := by simpa using hout
    have hi : index.toNat < 81 := by omega
    by_cases hfill : cell g index.toNat ≠ 0
    · rw [if_pos hfill, if_pos hfill]
    · rw [if_neg hfill, if_neg hfill]
      apply filterMap_congr_on
      intro v _
      rw [possAt_eq_freeAt g hi v]

/-- The scan performed by `isPossible` covers exactly the cells other
than `index` sharing a row, column, or box with it. -/
lemma isPossible_iff (g : Grid) (v : Int) {idx : Nat} (hidx : idx < 81) :
    isPossible g v idx = true ↔
      ∀ j < 81, j ≠ idx → SameGroup idx j → cell g j ≠ v := by
  unfold isPossible
  simp only [List.all_eq_true, List.mem_range, Bool.and_eq_true, Bool.not_eq_true',
    Bool.and_eq_false_iff, bne_eq_false_iff_eq, beq_eq_false_iff_ne, ne_eq]
  constructor
  · intro h j hj hne hsg
    rcases hsg with hr | hc | hb
    · have ht : j % 9 < 9 := by omega
      have := ((h (j % 9) ht).1).1
      have hidx2 : (rowList idx).getD (j % 9) 0 = j := by
        rw [rowList_getD hidx ht]; unfold SameRow at hr; omega
      rw [hidx2] at this
      rcases this with h1 | h2
      · exact absurd h1 hne
      · exact h2
    · have ht : j / 9 < 9 := by omega
      have := ((h (j / 9) ht).1).2
      have hidx2 : (colList idx).getD (j / 9) 0 = j := by
        rw [colList_getD hidx ht]; unfold SameCol at hc; omega
      rw [hidx2] at this
      rcases this with h1 | h2
      · exact absurd h1 hne
      · exact h2
    · obtain ⟨hb1, hb2⟩ := hb
      have ht : j / 9 % 3 * 3 + j % 3 < 9 := by omega
      have := (h (j / 9 % 3 * 3 + j % 3) ht).2
      have hidx2 : (sqList idx).getD (j / 9 % 3 * 3 + j % 3) 0 = j := by
        rw [sqList_getD hidx ht]; omega
      rw [hidx2] at this
      rcases this with h1 | h2
      · exact absurd h1 hne
      · exact h2
  · intro h t ht
    have hrow := rowList_getD hidx ht
    have hcol := colList_getD hidx ht
    have hsq := sqList_getD hidx ht
    refine ⟨⟨?_, ?_⟩, ?_⟩
    · rw [hrow]
      by_cases he : idx / 9 * 9 + t = idx
      · exact Or.inl he
      · refine Or.inr (h _ (by omega) he ?_)
        refine Or.inl ?_
        unfold SameRow
        omega
    · rw [hcol]
      by_cases he : t * 9 + idx % 9 = idx
      · exact Or.inl he
      · refine Or.inr (h _ (by omega) he ?_)
        refine Or.inr (Or.inl ?_)
        unfold SameCol
        omega
    · rw [hsq]
      by_cases he : idx / 27 * 27 + idx % 9 / 3 * 3 + t / 3 * 9 + t % 3 = idx
      · exact Or.inl he
      · refine Or.inr (h _ (by omega) he ?_)
        refine Or.inr (Or.inr ?_)
        unfold SameBox
        constructor <;> omega

lemma cell_set (g : Grid) (i : Nat) (v : Int) (j : Nat) :
    cell (g.set i v) j = if i = j ∧ i < g.length then v else cell g j := by
  unfold cell
  simp only [List.getD_eq_getElem?_getD, List.getElem?_set]
  by_cases hij : i = j
  · subst hij
    by_cases hl : i < g.length
    · simp [hl]
    · have hnone : g[i]? = none := List.getElem?_eq_none (by omega)
      simp [hl, hnone]
  · simp [hij]

lemma cell_set_same {g : Grid} {i : Nat} (v : Int) (hl : i < g.length) :
    cell (g.set i v) i = v := by
  rw [cell_set]; simp [hl]

lemma cell_set_other {g : Grid} {i j : Nat} (v : Int) (hij : i ≠ j) :
    cell (g.set i v) j = cell g j := by
  rw [cell_set]; simp [hij]

lemma set_zero_of_cell_zero {g : Grid} {i : Nat} (h : cell g i = 0) : g.set i 0 = g := by
  apply List.ext_getElem?
  intro n
  rw [List.getElem?_set]
  by_cases hn : i = n
  · subst hn
    by_cases hl : i < g.length
    · unfold cell at h
      simp only [List.getD_eq_getElem?_getD, List.getElem?_eq_getElem hl] at h
      simp only [hl, if_pos rfl, if_pos trivial, List.getElem?_eq_getElem hl]
      simpa using h.symm
    · have hnone : g[i]? = none := List.getElem?_eq_none (by omega)
      simp [hl, hnone]
  · simp [hn]

lemma sameGroup_symm {i j : Nat} (h : SameGroup i j) : SameGroup j i := by
  unfold SameGroup SameRow SameCol SameBox at *
  rcases h with h | h | ⟨h1, h2⟩
  · exact Or.inl h.symm
  · exact Or.inr (Or.inl h.symm)
  · exact Or.inr (Or.inr ⟨h1.symm, h2.symm⟩)

lemma cell_eq_getElem {g : Grid} {i : Nat} (h : i < g.length) : cell g i = g[i] := by
  unfold cell
  simp [List.getD_eq_getElem?_getD, List.getElem?_eq_getElem h]

lemma validG_iff (g : Grid) : validG g ↔ PairwiseValid g := by
  constructor
  · intro h i hi j hj hij hsg h0i h0j heq
    have hp := (isPossible_iff g (cell g i) hi).mp (h i hi h0i) j hj (Ne.symm hij) hsg
    exact hp heq.symm
  · intro h i hi h0i
    rw [isPossible_iff g _ hi]
    intro j hj hji hsg heqj
    have h0j : cell g j ≠ 0 := by rw [heqj]; exact h0i
    exact h i hi j hj (Ne.symm hji) hsg h0i h0j heqj.symm

lemma checkState_iff (ng : Grid) : checkState ng = true ↔ validG ng := by
  unfold checkState validG
  rw [List.all_eq_true]
  simp only [List.mem_range, Bool.or_eq_true, beq_iff_eq]
  constructor
  · intro h i hi h0
    rcases h i hi with h1 | h2
    · exact absurd h1 h0
    · exact h2
  · intro h i hi
    by_cases h0 : cell ng i = 0
    · exact Or.inl h0
    · exact Or.inr (h i hi h0)

lemma digit_toNat_bounds {c : Char} (h : c.isDigit = true) :
    48 ≤ c.toNat ∧ c.toNat ≤ 57 := by
  unfold Char.isDigit at h
  simp only [Bool.and_eq_true, decide_eq_true_eq] at h
  obtain ⟨h1, h2⟩ := h
  unfold Char.toNat
  exact ⟨h1, h2⟩

lemma norm_isDigit (c : Char) : (if c.isDigit then c else '0').isDigit = true := by
  by_cases h : c.isDigit = true
  · simp [h]
  · rw [if_neg h]
    decide

lemma parseState_length (s : List Char) : (parseState s).length = s.length := by
  unfold parseState
  simp

lemma parseState_bounds (s : List Char) :
    ∀ i < (parseState s).length, 0 ≤ cell (parseState s) i ∧ cell (parseState s) i ≤ 9 := by
  intro i hi
  rw [cell_eq_getElem hi]
  unfold parseState at hi ⊢
  simp only [List.length_map] at hi
  simp only [List.getElem_map]
  have hd := norm_isDigit s[i]
  have hb := digit_toNat_bounds hd
  omega

lemma initFromString_spec (old : Grid) (s : List Char) :
    (initFromString old s = (true, parseState s) ∧ validG (parseState s) ∧
      (parseState s).length = 81) ∨
    initFromString old s = (false, old) := by
  unfold initFromString
  split
  · exact Or.inr rfl
  · next hlen =>
    by_cases hok : checkState (parseState s) = true
    · refine Or.inl ⟨?_, (checkState_iff _).mp hok, ?_⟩
      · rw [if_pos hok]
      · rw [parseState_length]; omega
    · rw [if_neg hok]
      exact Or.inr rfl

lemma importGame_false {old : Grid} {s : List Char}
    (h : (importGame old s).1 = false) : (importGame old s).2 = initState := by
  unfold importGame at h ⊢
  rcases initFromString_spec initState s with ⟨heq, _, _⟩ | heq
  · rw [heq] at h
    simp at h
  · rw [heq]

lemma toString_digit {v : Int} (h0 : 0 ≤ v) (h9 : v ≤ 9) :
    (toString v).data = [Char.ofNat (48 + v.toNat)] := by
  interval_cases v <;> decide

lemma digit_char_ne_dot {v : Int} (h1 : 1 ≤ v) (h9 : v ≤ 9) :
    Char.ofNat (48 + v.toNat) ≠ '0' := by
  interval_cases v <;> decide

lemma map_id_on {α : Type} {l : List α} {f : α → α} (h : ∀ a ∈ l, f a = a) :
    l.map f = l := by
  induction l with
  | nil => rfl
  | cons a l ih =>
    rw [List.map_cons, h a (by simp), ih fun b hb => h b (by simp [hb])]

lemma exportGame_eq_map {g : Grid} (h : ∀ v ∈ g, 0 ≤ v ∧ v ≤ 9) :
    exportGame g = g.map fun v => if v = 0 then '.' else Char.ofNat (48 + v.toNat) := by
  induction g with
  | nil => rfl
  | cons a l ih =>
    obtain ⟨ha0, ha9⟩ := h a (by simp)
    have ihh := ih fun v hv => h v (by simp [hv])
    unfold exportGame at ihh ⊢
    simp only [List.map_cons, List.flatten_cons, List.map_append]
    rw [toString_digit ha0 ha9, ihh]
    by_cases hz : a = 0
    · subst hz
      norm_num
    · have hne := digit_char_ne_dot (by omega) ha9
      simp [hz, hne]

lemma cells_mem_of_bounds {g : Grid} (hlen : g.length = 81)
    (hc : ∀ i < 81, 0 ≤ cell g i ∧ cell g i ≤ 9) : ∀ v ∈ g, 0 ≤ v ∧ v ≤ 9 := by
  intro v hv
  obtain ⟨i, hi, hgi⟩ := List.getElem_of_mem hv
  have := hc i (by omega)
  rw [cell_eq_getElem (by omega)] at this
  rw [← hgi]
  exact this

lemma parse_of_export {g : Grid} (hmem : ∀ v ∈ g, 0 ≤ v ∧ v ≤ 9) :
    parseState (exportGame g) = g := by
  rw [exportGame_eq_map hmem]
  unfold parseState
  rw [List.map_map, List.map_map]
  apply map_id_on
  intro v hv
  obtain ⟨h0, h9⟩ := hmem v hv
  simp only [Function.comp]
  interval_cases v <;> decide

lemma export_import_roundtrip {g : Grid} (hlen : g.length = 81)
    (hc : ∀ i < 81, 0 ≤ cell g i ∧ cell g i ≤ 9) (hpv : PairwiseValid g) (old : Grid) :
    importGame old (exportGame g) = (true, g) := by
  have hmem := cells_mem_of_bounds hlen hc
  have hparse := parse_of_export hmem
  have hexplen : (exportGame g).length = 81 := by
    rw [exportGame_eq_map hmem, List.length_map, hlen]
  unfold importGame initFromString
  rw [if_neg (by omega)]
  rw [hparse]
  rw [if_pos ((checkState_iff g).mpr ((validG_iff g).mpr hpv))]

/-! ## Claim theorems: constraint evaluator, editing surface, import/export -/

/-- C7: for every grid state and index, `getPossible` returns exactly
the spec-side candidate list: the empty list when the index is out of
range, the singleton of the current value when the cell is filled, and
otherwise the ascending list of values `1..9` appearing in no cell of
the index's row, column, or true enclosing 3x3 box (the `squares`
lookup through the transposed `(col/3)*3 + (row/3)` identifier scans the
correct box). -/
theorem candidates_match_spec (g : Grid) (index : Int) :
    getPossible g index = specCandidates g index :=
  getPossible_eq g index

/-- C10: `add` enforces only the group constraint, not the 0..9 value
domain: any nonzero value (for example 10 or -1) occurring in no other
cell of the index's row, column, or box is accepted and stored. -/
theorem add_ignores_value_domain (g : Grid) (v : Int) (idx : Nat) (hidx : idx < 81)
    (hv : v ≠ 0) (hfree : ∀ j < 81, j ≠ idx → SameGroup idx j → cell g j ≠ v) :
    add g v idx = (true, g.set idx v) := by
  unfold add
  have hp : isPossible g v idx = true := (isPossible_iff g v hidx).mpr hfree
  simp [hp]

/-- Witness for C10: on the empty grid, `add 10 0` (value outside the
documented 0..9 domain) succeeds and stores 10. -/
theorem add_ignores_value_domain_witness :
    (0 : Nat) < 81 ∧ (10 : Int) ≠ 0 ∧
      (∀ j < 81, j ≠ 0 → SameGroup 0 j → cell initState j ≠ 10) ∧
      add initState 10 0 = (true, initState.set 0 10) :=
  ⟨by decide, by decide, by decide,
    add_ignores_value_domain initState 10 0 (by decide) (by decide) (by decide)⟩

/-- C8: every successful `add` and every successful `importGame`
preserve the core invariant: distinct cells sharing a row, column, or
box never hold the same nonzero value. -/
theorem invariant_preserved (g : Grid) (v : Int) (idx : Nat) (old : Grid) (s : List Char) :
    (PairwiseValid g → (add g v idx).1 = true → PairwiseValid (add g v idx).2) ∧
    ((importGame old s).1 = true → PairwiseValid (importGame old s).2) := by
  constructor
  · intro hpv hadd
    unfold add at hadd ⊢
    by_cases hc : (v == 0 || isPossible g v idx) = true
    · rw [if_pos hc]
      show PairwiseValid (g.set idx v)
      intro i hi j hj hij hsg h0i h0j
      by_cases hvi : idx = i ∧ idx < g.length
      · obtain ⟨hidxi, hlen⟩ := hvi
        subst hidxi
        rw [cell_set_same v hlen] at h0i ⊢
        rw [cell_set_other v hij] at h0j ⊢
        rcases (by simpa using hc : v = 0 ∨ isPossible g v idx = true) with hz | hp
        · exact absurd hz h0i
        · have := (isPossible_iff g v hi).mp hp j hj (Ne.symm hij) hsg
          exact fun he => this he.symm
      · have hci : cell (g.set idx v) i = cell g i := by rw [cell_set, if_neg hvi]
        rw [hci] at h0i ⊢
        by_cases hvj : idx = j ∧ idx < g.length
        · obtain ⟨hidxj, hlen⟩ := hvj
          subst hidxj
          rw [cell_set_same v hlen] at h0j ⊢
          rcases (by simpa using hc : v = 0 ∨ isPossible g v idx = true) with hz | hp
          · exact absurd hz h0j
          · exact (isPossible_iff g v hj).mp hp i hi hij (sameGroup_symm hsg)
        · have hcj : cell (g.set idx v) j = cell g j := by rw [cell_set, if_neg hvj]
          rw [hcj] at h0j ⊢
          exact hpv i hi j hj hij hsg h0i h0j
    · rw [if_neg hc] at hadd
      simp at hadd
  · intro htrue
    unfold importGame at htrue ⊢
    rcases initFromString_spec initState s with ⟨heq, hval, _⟩ | heq
    · rw [heq]
      exact (validG_iff _).mp hval
    · rw [heq] at htrue
      simp at htrue

/-- Witness for C8: a concrete successful `add` on the empty grid and a
concrete successful import both yield grids satisfying the invariant. -/
theorem invariant_preserved_witness :
    (PairwiseValid initState ∧ (add initState 5 0).1 = true ∧
      PairwiseValid (add initState 5 0).2) ∧
    ((importGame [] (List.replicate 81 '.')).1 = true ∧
      PairwiseValid (importGame [] (List.replicate 81 '.')).2) := by
  constructor
  · refine ⟨(pairwiseValid_iff _).mp (by decide), by decide, ?_⟩
    exact (invariant_preserved initState 5 0 [] []).1
      ((pairwiseValid_iff _).mp (by decide)) (by decide)
  · refine ⟨by decide, ?_⟩
    exact (invariant_preserved initState 5 0 [] (List.replicate 81 '.')).2 (by decide)

/-- C9: for every grid with cells in 0..9 satisfying the core invariant,
re-importing its own export succeeds and a subsequent export reproduces
the identical encoding. -/
theorem export_import_idempotent (g : Grid) (hlen : g.length = 81)
    (hc : ∀ i < 81, 0 ≤ cell g i ∧ cell g i ≤ 9) (hpv : PairwiseValid g) :
    importGame g (exportGame g) = (true, g) ∧
    exportGame (importGame g (exportGame g)).2 = exportGame g := by
  have h := export_import_roundtrip hlen hc hpv g
  exact ⟨h, by rw [h]⟩

/-- Witness for C9 at the grid holding a single 5. -/
theorem export_import_idempotent_witness :
    (initState.set 0 5).length = 81 ∧
    importGame (initState.set 0 5) (exportGame (initState.set 0 5)) =
      (true, initState.set 0 5) ∧
    exportGame (importGame (initState.set 0 5) (exportGame (initState.set 0 5))).2 =
      exportGame (initState.set 0 5) := by
  refine ⟨by decide, ?_⟩
  exact export_import_idempotent _ (by decide) (by decide)
    ((pairwiseValid_iff _).mp (by decide))

/-- Counterexample to C1 as stated: importing a length-80 string fails,
but the grid afterwards is the cleared grid, not the prior grid that
held a 5. -/
theorem import_failure_counterexample :
    (importGame (initState.set 0 5) (List.replicate 80 '.')).1 = false ∧
    (importGame (initState.set 0 5) (List.replicate 80 '.')).2 ≠ initState.set 0 5 := by
  decide

/-- C1 (amended): when `importGame` returns false the grid afterwards is
the all-empty grid — `importGame` clears the state with `initState()`
before parsing, so the prior grid is discarded even on failure. -/
theorem import_failure_clears (old : Grid) (s : List Char)
    (h : (importGame old s).1 = false) : (importGame old s).2 = initState :=
  importGame_false h

/-- Witness for the amended C1 at a length-80 input. -/
theorem import_failure_clears_witness :
    (importGame (initState.set 0 5) (List.replicate 80 '.')).1 = false ∧
    (importGame (initState.set 0 5) (List.replicate 80 '.')).2 = initState :=
  ⟨by decide, import_failure_clears _ _ (by decide)⟩

/-! ## Search-engine lemmas -/

lemma advanceGo_congr (g : Grid) :
    ∀ (n m index : Nat), 81 - index ≤ n → 81 - index ≤ m →
      advanceGo g n index = advanceGo g m index := by
  intro n
  induction n with
  | zero =>
    intro m index hn _
    have hcond : ¬(index < 81 ∧ cell g index ≠ 0) := fun hc => by omega
    cases m with
    | zero => rfl
    | succ m => simp only [advanceGo, if_neg hcond]
  | succ n ih =>
    intro m index hn hm
    by_cases hcond : index < 81 ∧ cell g index ≠ 0
    · cases m with
      | zero => omega
      | succ m =>
        simp only [advanceGo, if_pos hcond]
        exact ih m (index + 1) (by omega) (by omega)
    · cases m with
      | zero => simp only [advanceGo, if_neg hcond]
      | succ m => simp only [advanceGo, if_neg hcond]

lemma advance_eq (g : Grid) (index : Nat) :
    advance g index = if index < 81 ∧ cell g index ≠ 0 then advance g (index + 1) else index := by
  unfold advance
  by_cases hcond : index < 81 ∧ cell g index ≠ 0
  · rw [if_pos hcond]
    have h1 : 81 - index = (81 - (index + 1)) + 1 := by omega
    rw [h1]
    simp only [advanceGo, if_pos hcond]
  · rw [if_neg hcond]
    cases hn : 81 - index with
    | zero => rfl
    | succ n => simp only [advanceGo, if_neg hcond]

lemma advance_spec (g : Grid) (index : Nat) :
    index ≤ advance g index ∧
    (index ≤ 81 → advance g index ≤ 81) ∧
    ¬(advance g index < 81 ∧ cell g (advance g index) ≠ 0) ∧
    (∀ j, index ≤ j → j < advance g index → cell g j ≠ 0) := by
  have H : ∀ n index, 81 - index ≤ n →
      index ≤ advance g index ∧
      (index ≤ 81 → advance g index ≤ 81) ∧
      ¬(advance g index < 81 ∧ cell g (advance g index) ≠ 0) ∧
      (∀ j, index ≤ j → j < advance g index → cell g j ≠ 0) := by
    intro n
    induction n with
    | zero =>
      intro index h
      have hcond : ¬(index < 81 ∧ cell g index ≠ 0) := fun hc => by omega
      rw [advance_eq, if_neg hcond]
      exact ⟨le_rfl, fun h81 => h81, hcond,
        fun j h1 h2 => absurd (h1.trans_lt h2) (lt_irrefl index)⟩
    | succ n ih =>
      intro index h
      by_cases hcond : index < 81 ∧ cell g index ≠ 0
      · rw [advance_eq, if_pos hcond]
        obtain ⟨ih1, ih2, ih3, ih4⟩ := ih (index + 1) (by omega)
        refine ⟨by omega, fun _ => ih2 (by omega), ih3, ?_⟩
        intro j h1 h2
        by_cases hji : j = index
        · subst hji; exact hcond.2
        · exact ih4 j (by omega) h2
      · rw [advance_eq, if_neg hcond]
        exact ⟨le_rfl, fun h81 => h81, hcond,
          fun j h1 h2 => absurd (h1.trans_lt h2) (lt_irrefl index)⟩
  exact H 82 index (by omega)

lemma advance_cell_zero {g : Grid} {index : Nat} (h : advance g index < 81) :
    cell g (advance g index) = 0 := by
  have := (advance_spec g index).2.2.1
  by_contra hne
  exact this ⟨h, hne⟩

lemma getPossible_oob {g : Grid} {index : Int} (h : 81 ≤ index) :
    getPossible g index = [] := by
  unfold getPossible
  rw [if_pos]
  simp [h]

lemma shuffle_nil {α : Type} [Inhabited α] (ρ : Nat → Nat) (k : Nat) :
    shuffle ρ k ([] : List α) = ([], k) := rfl

lemma dfsLoopF_g {σ : Type} (rec : Nat → Grid → σ → Nat → DfsOut σ)
    (hrec : ∀ i g c k, (rec i g c k).g = g) (index : Nat) :
    ∀ (lst : List Int) (g : Grid) (ctx : σ) (k : Nat) (ret : JSVal),
      cell g index = 0 → (dfsLoopF rec index g ctx k ret lst).g = g := by
  intro lst
  induction lst with
  | nil => intro g ctx k ret _; rfl
  | cons v rest ih =>
    intro g ctx k ret h0
    simp only [dfsLoopF]
    have hreset : ((rec (index + 1) (g.set index v) ctx k).g).set index 0 = g := by
      rw [hrec _ _ _ _, List.set_set, set_zero_of_cell_zero h0]
    split
    · exact hreset
    · rw [hreset]
      exact ih g _ _ _ h0

lemma dfsGo_g {σ : Type} (ρ : Nat → Nat) (random : Bool) (cb : Grid → σ → σ × JSVal) :
    ∀ (fuel index : Nat) (g : Grid) (ctx : σ) (k : Nat),
      (dfsGo ρ random cb fuel index g ctx k).g = g := by
  intro fuel
  induction fuel with
  | zero => intro index g ctx k; rfl
  | succ fuel ih =>
    intro index g ctx k
    simp only [dfsGo]
    split
    · rfl
    · next hne =>
      by_cases ha : advance g index < 81
      · exact dfsLoopF_g _ (fun i g' c k' => ih i g' c k') _ _ _ _ _ _
          (advance_cell_zero ha)
      · have h81 : (81 : Int) ≤ (advance g index : Int) := by
          have : 81 ≤ advance g index := by omega
          exact_mod_cast this
        rw [getPossible_oob h81]
        cases random
        · rfl
        · rfl

/-- C2: a top-level search call leaves every cell of the live grid
exactly as it was before the call, for every grid, context (including
randomized mode and any oracle), and callback: each tentative placement
is retracted on every exit path, including the early-stop path. -/
theorem search_restores_grid {σ : Type} (g : Grid) (random : Bool) (ρ : Nat → Nat) (k : Nat)
    (ctx : σ) (cb : Grid → σ → σ × JSVal) :
    (findAll g random ρ k ctx cb).g = g :=
  dfsGo_g ρ random cb 82 0 g ctx k

lemma drive_append {σ : Type} (cb : Grid → σ → σ × JSVal) (ctx : σ) (l1 l2 : List Grid) :
    drive cb ctx (l1 ++ l2) =
      if (drive cb ctx l1).stopped then drive cb ctx l1
      else ⟨(drive cb ctx l1).trace ++ (drive cb (drive cb ctx l1).ctx l2).trace,
            (drive cb (drive cb ctx l1).ctx l2).ctx,
            (drive cb (drive cb ctx l1).ctx l2).stopped⟩ := by
  induction l1 generalizing ctx with
  | nil => simp [drive]
  | cons s rest ih =>
    by_cases hstop : (cb s ctx).2 = JSVal.bool false
    · have hL : drive cb ctx (s :: (rest ++ l2)) = ⟨[s], (cb s ctx).1, true⟩ := by
        simp [drive, hstop]
      have hR : drive cb ctx (s :: rest) = ⟨[s], (cb s ctx).1, true⟩ := by
        simp [drive, hstop]
      rw [List.cons_append, hL, hR]
      simp
    · have hL : drive cb ctx (s :: (rest ++ l2)) =
          ⟨s :: (drive cb (cb s ctx).1 (rest ++ l2)).trace,
            (drive cb (cb s ctx).1 (rest ++ l2)).ctx,
            (drive cb (cb s ctx).1 (rest ++ l2)).stopped⟩ := by
        simp [drive, hstop]
      have hR : drive cb ctx (s :: rest) =
          ⟨s :: (drive cb (cb s ctx).1 rest).trace,
            (drive cb (cb s ctx).1 rest).ctx,
            (drive cb (cb s ctx).1 rest).stopped⟩ := by
        simp [drive, hstop]
      rw [List.cons_append, hL, hR, ih]
      by_cases h2 : (drive cb (cb s ctx).1 rest).stopped
      · simp [h2]
      · simp [h2]

lemma dfsLoopF_drive {σ : Type} (cb : Grid → σ → σ × JSVal)
    (rec : Nat → Grid → σ → Nat → DfsOut σ) (recS : Nat → Grid → Nat → List Grid × Nat)
    (hrecg : ∀ i g c k, (rec i g c k).g = g)
    (hrel : ∀ i g c k,
      (rec i g c k).trace = (drive cb c (recS i g k).1).trace ∧
      (rec i g c k).ctx = (drive cb c (recS i g k).1).ctx ∧
      ((rec i g c k).ret = JSVal.bool false ↔ (drive cb c (recS i g k).1).stopped = true) ∧
      ((drive cb c (recS i g k).1).stopped = false → (rec i g c k).k = (recS i g k).2))
    (index : Nat) :
    ∀ (lst : List Int) (g : Grid) (ctx : σ) (k : Nat) (ret : JSVal),
      cell g index = 0 → ret ≠ JSVal.bool false →
      (dfsLoopF rec index g ctx k ret lst).trace =
        (drive cb ctx (solsLoopF recS index g lst k).1).trace ∧
      (dfsLoopF rec index g ctx k ret lst).ctx =
        (drive cb ctx (solsLoopF recS index g lst k).1).ctx ∧
      ((dfsLoopF rec index g ctx k ret lst).ret = JSVal.bool false ↔
        (drive cb ctx (solsLoopF recS index g lst k).1).stopped = true) ∧
      ((drive cb ctx (solsLoopF recS index g lst k).1).stopped = false →
        (dfsLoopF rec index g ctx k ret lst).k = (solsLoopF recS index g lst k).2) := by
  intro lst
  induction lst with
  | nil =>
    intro g ctx k ret h0 hret
    refine ⟨rfl, rfl, ?_, fun _ => rfl⟩
    simp only [dfsLoopF, solsLoopF, drive]
    constructor
    · intro h; exact absurd h hret
    · intro h; exact absurd h (by simp)
  | cons v rest ih =>
    intro g ctx k ret h0 hret
    obtain ⟨ht1, hc1, hr1, hk1⟩ := hrel (index + 1) (g.set index v) ctx k
    have hreset : ((rec (index + 1) (g.set index v) ctx k).g).set index 0 = g := by
      rw [hrecg _ _ _ _, List.set_set, set_zero_of_cell_zero h0]
    simp only [dfsLoopF, solsLoopF]
    rw [drive_append]
    by_cases hstop : (rec (index + 1) (g.set index v) ctx k).ret = JSVal.bool false
    · have hd1 : (drive cb ctx (recS (index + 1) (g.set index v) k).1).stopped = true :=
        hr1.mp hstop
      rw [if_pos hstop, if_pos hd1]
      dsimp only
      refine ⟨ht1, hc1, ?_, ?_⟩
      · simp [hstop, hd1]
      · intro habs; rw [habs] at hd1; cases hd1
    · have hd1 : (drive cb ctx (recS (index + 1) (g.set index v) k).1).stopped = false := by
        cases hdc : (drive cb ctx (recS (index + 1) (g.set index v) k).1).stopped
        · rfl
        · exact absurd (hr1.mpr hdc) hstop
      have hk1' := hk1 hd1
      rw [if_neg hstop, if_neg (by simp [hd1]), hreset]
      dsimp only
      rw [← hc1, ← hk1']
      obtain ⟨ih1, ih2, ih3, ih4⟩ := ih g (rec (index + 1) (g.set index v) ctx k).ctx
        (rec (index + 1) (g.set index v) ctx k).k
        (rec (index + 1) (g.set index v) ctx k).ret h0 hstop
      exact ⟨by rw [ht1, ih1], ih2, ih3, ih4⟩

lemma dfsGo_drive {σ : Type} (ρ : Nat → Nat) (random : Bool) (cb : Grid → σ → σ × JSVal) :
    ∀ (fuel index : Nat) (g : Grid) (ctx : σ) (k : Nat),
      (dfsGo ρ random cb fuel index g ctx k).trace =
        (drive cb ctx (sols ρ random fuel index g k).1).trace ∧
      (dfsGo ρ random cb fuel index g ctx k).ctx =
        (drive cb ctx (sols ρ random fuel index g k).1).ctx ∧
      ((dfsGo ρ random cb fuel index g ctx k).ret = JSVal.bool false ↔
        (drive cb ctx (sols ρ random fuel index g k).1).stopped = true) ∧
      ((drive cb ctx (sols ρ random fuel index g k).1).stopped = false →
        (dfsGo ρ random cb fuel index g ctx k).k = (sols ρ random fuel index g k).2) := by
  intro fuel
  induction fuel with
  | zero =>
    intro index g ctx k
    refine ⟨rfl, rfl, ?_, fun _ => rfl⟩
    simp [dfsGo, sols, drive]
  | succ fuel ih =>
    intro index g ctx k
    simp only [dfsGo, sols]
    by_cases ha : advance g index = 81
    · rw [if_pos ha, if_pos ha]
      by_cases hr : (cb g ctx).2 = JSVal.bool false
      · have hd : drive cb ctx [g] = ⟨[g], (cb g ctx).1, true⟩ := by simp [drive, hr]
        rw [hd]
        dsimp only
        refine ⟨rfl, rfl, ?_, ?_⟩
        · simp [hr]
        · intro habs; cases habs
      · have hd : drive cb ctx [g] = ⟨[g], (cb g ctx).1, false⟩ := by simp [drive, hr]
        rw [hd]
        dsimp only
        refine ⟨rfl, rfl, ?_, fun _ => rfl⟩
        simp [hr]
    · rw [if_neg ha, if_neg ha]
      by_cases hlt : advance g index < 81
      · exact dfsLoopF_drive cb _ _ (fun i g' c k' => dfsGo_g ρ random cb fuel i g' c k')
          (fun i g' c k' => ih i g' c k') _ _ _ _ _ _ (advance_cell_zero hlt) (by simp)
      · have h81 : (81 : Int) ≤ (advance g index : Int) := by
          have : 81 ≤ advance g index := by omega
          exact_mod_cast this
        rw [getPossible_oob h81]
        cases random
        · refine ⟨rfl, rfl, ?_, fun _ => rfl⟩
          simp [dfsLoopF, solsLoopF, drive]
        · rw [show shuffle ρ k ([] : List Int) = ([], k) from rfl]
          refine ⟨rfl, rfl, ?_, fun _ => rfl⟩
          simp [dfsLoopF, solsLoopF, drive]

/-- C6: the search stops — unwinding through every recursion level —
exactly when the callback returns the literal `false` sentinel: the
solutions passed to the callback, the final context, and the propagated
return value of a `findAll` run all coincide with driving the callback
over the pure enumeration of solutions, where `drive` cuts off exactly
after the first `false` (return values such as `0`, `null`, or
`undefined` continue the search). -/
theorem callback_stop_semantics {σ : Type} (g : Grid) (random : Bool) (ρ : Nat → Nat)
    (k : Nat) (ctx : σ) (cb : Grid → σ → σ × JSVal) :
    (findAll g random ρ k ctx cb).trace =
      (drive cb ctx (sols ρ random 82 0 g k).1).trace ∧
    (findAll g random ρ k ctx cb).ctx =
      (drive cb ctx (sols ρ random 82 0 g k).1).ctx ∧
    ((findAll g random ρ k ctx cb).ret = JSVal.bool false ↔
      (drive cb ctx (sols ρ random 82 0 g k).1).stopped = true) := by
  obtain ⟨h1, h2, h3, _⟩ := dfsGo_drive ρ random cb 82 0 g ctx k
  exact ⟨h1, h2, h3⟩

lemma set_getD_self {α : Type} [Inhabited α] (l : List α) {c : Nat} (hc : c < l.length) :
    l.set c (l.getD c default) = l := by
  apply List.ext_getElem?
  intro n
  rw [List.getElem?_set]
  by_cases hn : c = n
  · subst hn
    simp [hc, List.getD_eq_getElem?_getD, List.getElem?_eq_getElem hc]
  · simp [hn]

lemma perm_set_swap {α : Type} [Inhabited α] (x : α) :
    ∀ (t : List α) (s : Nat), s < t.length →
      (t.getD s default :: t.set s x).Perm (x :: t) := by
  intro t
  induction t with
  | nil => intro s hs; simp at hs
  | cons y u ih =>
    intro s hs
    cases s with
    | zero =>
      simp only [List.getD_cons_zero, List.set_cons_zero]
      exact List.Perm.swap x y u
    | succ s =>
      simp only [List.getD_cons_succ, List.set_cons_succ]
      have h1 : (u.getD s default :: y :: u.set s x).Perm (y :: u.getD s default :: u.set s x) :=
        List.Perm.swap y (u.getD s default) (u.set s x)
      have h2 : (y :: u.getD s default :: u.set s x).Perm (y :: x :: u) :=
        List.Perm.cons y (ih s (by simpa using hs))
      have h3 : (y :: x :: u).Perm (x :: y :: u) := List.Perm.swap x y u
      exact (h1.trans h2).trans h3

lemma swapIdx_perm {α : Type} [Inhabited α] :
    ∀ (l : List α) (c r : Nat), c < l.length → r < l.length → (swapIdx l c r).Perm l := by
  intro l
  induction l with
  | nil => intro c r hc _; simp at hc
  | cons x t ih =>
    intro c r hc hr
    cases c with
    | zero =>
      cases r with
      | zero =>
        unfold swapIdx
        rw [List.set_set, set_getD_self _ (by simpa using hc)]
      | succ s =>
        unfold swapIdx
        simp only [List.getD_cons_succ, List.getD_cons_zero, List.set_cons_zero,
          List.set_cons_succ]
        exact perm_set_swap x t s (by simpa using hr)
    | succ a =>
      cases r with
      | zero =>
        unfold swapIdx
        simp only [List.getD_cons_succ, List.getD_cons_zero, List.set_cons_succ,
          List.set_cons_zero]
        exact perm_set_swap x t a (by simpa using hc)
      | succ s =>
        unfold swapIdx
        simp only [List.getD_cons_succ, List.set_cons_succ]
        exact List.Perm.cons x (ih a s (by simpa using hc) (by simpa using hr))

lemma shuffleGo_perm {α : Type} [Inhabited α] (ρ : Nat → Nat) :
    ∀ (c k : Nat) (l : List α), c < l.length → (shuffleGo ρ c k l).1.Perm l := by
  intro c
  induction c with
  | zero => intro k l _; exact List.Perm.refl l
  | succ c ih =>
    intro k l hc
    simp only [shuffleGo]
    have hr : ρ k % (c + 2) < l.length := by
      have : ρ k % (c + 2) < c + 2 := Nat.mod_lt _ (by omega)
      omega
    have hswap := swapIdx_perm l (c + 1) (ρ k % (c + 2)) hc hr
    have hlen : (swapIdx l (c + 1) (ρ k % (c + 2))).length = l.length := by
      unfold swapIdx; simp
    exact (ih (k + 1) _ (by omega)).trans hswap

lemma shuffle_perm {α : Type} [Inhabited α] (ρ : Nat → Nat) (k : Nat) (l : List α) :
    (shuffle ρ k l).1.Perm l := by
  unfold shuffle
  cases l with
  | nil => exact List.Perm.refl _
  | cons x t =>
    apply shuffleGo_perm
    simp

lemma mem_getPossible {g : Grid} {a : Nat} (ha : a < 81) (h0 : cell g a = 0) (v : Int) :
    v ∈ getPossible g (a : Int) ↔
      1 ≤ v ∧ v ≤ 9 ∧ ∀ j < 81, SameGroup a j → cell g j ≠ v := by
  rw [getPossible_eq]
  unfold specCandidates
  rw [if_neg (by simp; omega)]
  rw [show ((a : Int)).toNat = a from by simp]
  rw [if_neg (by simpa using h0)]
  simp only [List.mem_filterMap, List.mem_map, List.mem_range'_1]
  constructor
  · rintro ⟨w, ⟨n, ⟨hn1, hn2⟩, rfl⟩, hw⟩
    by_cases hfree : freeAt g a (n : Int) = true
    · rw [if_pos hfree] at hw
      obtain rfl : (n : Int) = v := by simpa using hw
      refine ⟨by omega, by omega, (freeAt_iff g a _).mp hfree⟩
    · rw [if_neg hfree] at hw
      cases hw
  · rintro ⟨h1, h9, hfree⟩
    refine ⟨v, ⟨v.toNat, ⟨by omega, by omega⟩, by omega⟩, ?_⟩
    rw [if_pos ((freeAt_iff g a v).mpr hfree)]

lemma completion_cell_mem {g : Grid} {a : Nat} (ha : a < 81) (h0 : cell g a = 0)
    {e : Grid} (he : Completion g e) : cell e a ∈ getPossible g (a : Int) := by
  obtain ⟨hlen, hb, hpv, hext⟩ := he
  rw [mem_getPossible ha h0]
  refine ⟨(hb a ha).1, (hb a ha).2, ?_⟩
  intro j hj hsg heq
  by_cases hz : cell g j = 0
  · have h1 := (hb a ha).1
    omega
  · have hej : cell e j = cell g j := hext j hj hz
    by_cases hja : j = a
    · subst hja; exact hz h0
    · have hne := hpv a ha j hj (Ne.symm hja) hsg (by have := (hb a ha).1; omega)
        (by rw [hej]; exact hz)
      rw [hej] at hne
      exact hne heq.symm

lemma completion_mono_set {g : Grid} {a : Nat} (h0 : cell g a = 0) {v : Int} {e : Grid}
    (he : Completion (g.set a v) e) : Completion g e := by
  obtain ⟨hlen, hb, hpv, hext⟩ := he
  refine ⟨hlen, hb, hpv, ?_⟩
  intro i hi hne
  by_cases hia : a = i
  · subst hia; exact absurd h0 hne
  · have := hext i hi
    rw [cell_set, if_neg (fun hc => hia hc.1)] at this
    exact this hne

lemma set_candidate_ok {g : Grid} {a : Nat} (ha : a < 81) (h0 : cell g a = 0)
    (hlen : g.length = 81) (hb : ∀ i < 81, 0 ≤ cell g i ∧ cell g i ≤ 9)
    (hpv : PairwiseValid g) {v : Int} (hv : v ∈ getPossible g (a : Int)) :
    (g.set a v).length = 81 ∧ (∀ i < 81, 0 ≤ cell (g.set a v) i ∧ cell (g.set a v) i ≤ 9) ∧
    PairwiseValid (g.set a v) := by
  rw [mem_getPossible ha h0] at hv
  obtain ⟨h1, h9, hfree⟩ := hv
  have hlt : a < g.length := by omega
  refine ⟨by simpa using hlen, ?_, ?_⟩
  · intro i hi
    rw [cell_set]
    by_cases hc : a = i ∧ a < g.length
    · rw [if_pos hc]; omega
    · rw [if_neg hc]; exact hb i hi
  · intro i hi j hj hij hsg h0i h0j
    by_cases hci : a = i
    · subst hci
      rw [cell_set_same v hlt] at h0i ⊢
      rw [cell_set_other v hij] at h0j ⊢
      exact fun heq => hfree j hj hsg heq.symm
    · rw [cell_set_other v (fun h => hci h)] at h0i ⊢
      by_cases hcj : a = j
      · subst hcj
        rw [cell_set_same v hlt] at h0j ⊢
        exact fun heq => hfree i hi (sameGroup_symm hsg) heq
      · rw [cell_set_other v (fun h => hcj h)] at h0j ⊢
        exact hpv i hi j hj hij hsg h0i h0j

lemma solsLoopF_sound {P : Int → Prop} {Q : Grid → Prop}
    (recS : Nat → Grid → Nat → List Grid × Nat) (a : Nat) (g : Grid)
    (hrec : ∀ v k, P v → ∀ e ∈ (recS (a + 1) (g.set a v) k).1, Q e) :
    ∀ (lst : List Int) (k : Nat), (∀ v ∈ lst, P v) →
      ∀ e ∈ (solsLoopF recS a g lst k).1, Q e := by
  intro lst
  induction lst with
  | nil => intro k _ e he; simp [solsLoopF] at he
  | cons v rest ih =>
    intro k hP e he
    simp only [solsLoopF, List.mem_append] at he
    rcases he with he | he
    · exact hrec v k (hP v (by simp)) e he
    · exact ih _ (fun w hw => hP w (by simp [hw])) e he

lemma sols_sound (ρ : Nat → Nat) (random : Bool) :
    ∀ (fuel index : Nat) (g : Grid) (k : Nat),
      g.length = 81 → (∀ i < 81, 0 ≤ cell g i ∧ cell g i ≤ 9) → PairwiseValid g →
      (∀ j < index, cell g j ≠ 0) →
      ∀ e ∈ (sols ρ random fuel index g k).1, Completion g e := by
  intro fuel
  induction fuel with
  | zero =>
    intro index g k _ _ _ _ e he
    simp [sols] at he
  | succ fuel ih =>
    intro index g k hlen hb hpv hpre e he
    simp only [sols] at he
    by_cases h81 : advance g index = 81
    · rw [if_pos h81] at he
      have he' : e = g := by simpa using he
      have hfill : ∀ i < 81, cell g i ≠ 0 := by
        intro i hi
        by_cases hlt : i < index
        · exact hpre i hlt
        · exact (advance_spec g index).2.2.2 i (by omega) (by omega)
      rw [he']
      exact ⟨hlen, fun i hi => ⟨by have h1 := hb i hi; have h2 := hfill i hi; omega,
        (hb i hi).2⟩, hpv, fun i hi _ => rfl⟩
    · rw [if_neg h81] at he
      by_cases hlt : advance g index < 81
      · have h0 : cell g (advance g index) = 0 := advance_cell_zero hlt
        have hmem : ∀ v ∈ (if random then shuffle ρ k (getPossible g (advance g index : Int))
            else (getPossible g (advance g index : Int), k)).1,
            v ∈ getPossible g (advance g index : Int) := by
          intro v hv
          cases random with
          | false => simpa using hv
          | true =>
            simp only [if_pos rfl] at hv
            exact (shuffle_perm ρ k _).mem_iff.mp hv
        refine solsLoopF_sound _ (advance g index) g ?_ _ _ hmem e he
        intro v k2 hvmem e2 he2
        obtain ⟨hl2, hb2, hpv2⟩ := set_candidate_ok hlt h0 hlen hb hpv hvmem
        have hpre2 : ∀ j < advance g index + 1, cell (g.set (advance g index) v) j ≠ 0 := by
          intro j hj
          by_cases hja : j = advance g index
          · subst hja
            rw [cell_set_same v (by omega)]
            rw [mem_getPossible hlt h0] at hvmem
            omega
          · rw [cell_set_other v (fun h => hja h.symm)]
            by_cases hji : j < index
            · exact hpre j hji
            · exact (advance_spec g index).2.2.2 j (by omega) (by omega)
        exact completion_mono_set h0
          (ih (advance g index + 1) (g.set (advance g index) v) k2 hl2 hb2 hpv2 hpre2 e2 he2)
      · have h81b : (81 : Int) ≤ (advance g index : Int) := by
          have : 81 ≤ advance g index := by omega
          exact_mod_cast this
        rw [getPossible_oob h81b] at he
        cases random with
        | false => simp [solsLoopF] at he
        | true =>
          rw [show shuffle ρ k ([] : List Int) = ([], k) from rfl] at he
          simp [solsLoopF] at he

lemma grid_ext {g e : Grid} (hg : g.length = 81) (he : e.length = 81)
    (h : ∀ i < 81, cell e i = cell g i) : e = g := by
  apply List.ext_getElem (by omega)
  intro i hi1 hi2
  have h1 := h i (by omega)
  rw [cell_eq_getElem hi1, cell_eq_getElem hi2] at h1
  exact h1

lemma solsLoopF_complete {recS : Nat → Grid → Nat → List Grid × Nat} {a : Nat} {g e : Grid}
    {v : Int} (hrec : ∀ k, e ∈ (recS (a + 1) (g.set a v) k).1) :
    ∀ (lst : List Int) (k : Nat), v ∈ lst → e ∈ (solsLoopF recS a g lst k).1 := by
  intro lst
  induction lst with
  | nil => intro k h; simp at h
  | cons w rest ih =>
    intro k hv
    simp only [solsLoopF, List.mem_append]
    rcases List.mem_cons.mp hv with heq | hv'
    · subst heq
      exact Or.inl (hrec k)
    · exact Or.inr (ih _ hv')

lemma sols_complete (ρ : Nat → Nat) (random : Bool) :
    ∀ (fuel index : Nat) (g : Grid) (k : Nat) (e : Grid),
      index ≤ 81 → 81 < fuel + index →
      g.length = 81 → (∀ j < index, cell g j ≠ 0) →
      Completion g e →
      e ∈ (sols ρ random fuel index g k).1 := by
  intro fuel
  induction fuel with
  | zero => intro index g k e hidx hfuel _ _ _; omega
  | succ fuel ih =>
    intro index g k e hidx hfuel hlen hpre hcomp
    simp only [sols]
    have ha_le : advance g index ≤ 81 := (advance_spec g index).2.1 hidx
    have ha_ge : index ≤ advance g index := (advance_spec g index).1
    by_cases h81 : advance g index = 81
    · rw [if_pos h81]
      have hfill : ∀ i < 81, cell g i ≠ 0 := by
        intro i hi
        by_cases h : i < index
        · exact hpre i h
        · exact (advance_spec g index).2.2.2 i (by omega) (by omega)
      obtain ⟨hlen2, hb2, hpv2, hext2⟩ := hcomp
      have : e = g := grid_ext hlen hlen2 fun i hi => hext2 i hi (hfill i hi)
      simp [this]
    · rw [if_neg h81]
      have hlt : advance g index < 81 := by omega
      have h0 : cell g (advance g index) = 0 := advance_cell_zero hlt
      have hv := completion_cell_mem hlt h0 hcomp
      have hvmem : cell e (advance g index) ∈
          (if random then shuffle ρ k (getPossible g (advance g index : Int))
            else (getPossible g (advance g index : Int), k)).1 := by
        cases random with
        | false => simpa using hv
        | true =>
          simp only [if_pos rfl]
          exact (shuffle_perm ρ k _).mem_iff.mpr hv
      apply solsLoopF_complete ?_ _ _ hvmem
      intro k2
      obtain ⟨hlen2, hb2, hpv2, hext2⟩ := hcomp
      have hset_len : (g.set (advance g index) (cell e (advance g index))).length = 81 := by
        simpa using hlen
      have hpre2 : ∀ j < advance g index + 1,
          cell (g.set (advance g index) (cell e (advance g index))) j ≠ 0 := by
        intro j hj
        by_cases hja : j = advance g index
        · subst hja
          rw [cell_set_same _ (by omega)]
          have := (hb2 (advance g index) hlt).1
          omega
        · rw [cell_set_other _ (fun h => hja h.symm)]
          by_cases hji : j < index
          · exact hpre j hji
          · exact (advance_spec g index).2.2.2 j (by omega) (by omega)
      have hcomp2 : Completion (g.set (advance g index) (cell e (advance g index))) e := by
        refine ⟨hlen2, hb2, hpv2, ?_⟩
        intro i hi hne
        by_cases hia : advance g index = i
        · subst hia
          rw [cell_set_same _ (by omega)]
        · rw [cell_set, if_neg (fun hc => hia hc.1)] at hne ⊢
          exact hext2 i hi hne
      exact ih (advance g index + 1) _ k2 e (by omega) (by omega) hset_len hpre2 hcomp2

lemma drive_solveCb_cons (s : Grid) (rest : List Grid) :
    drive solveCb (none : Option Grid) (s :: rest) = ⟨[s], some s, true⟩ := by
  simp [drive, solveCb]

lemma solve_eq (g : Grid) :
    (solsDet g = [] → solve g = (none, g)) ∧
    (∀ s rest, solsDet g = s :: rest → solve g = (some (exportGame s), s)) := by
  obtain ⟨_, hctx, _, _⟩ := dfsGo_drive (fun _ => 0) false solveCb 82 0 g (none : Option Grid) 0
  have hg := dfsGo_g (fun _ => 0) false solveCb 82 0 g (none : Option Grid) 0
  constructor
  · intro hnil
    unfold solsDet at hnil
    rw [hnil] at hctx
    simp only [drive] at hctx
    unfold solve
    simp only []
    rw [hctx, hg]
  · intro s rest hcons
    unfold solsDet at hcons
    rw [hcons, drive_solveCb_cons] at hctx
    dsimp only at hctx
    unfold solve
    simp only []
    rw [hctx]

/-- C5: `solve` returns null with the grid unchanged exactly when no
completed assignment (81 cells in 1..9 satisfying the group invariant)
extends the current grid; otherwise it returns the export of the first
solution found by the deterministic depth-first enumeration and leaves
the live grid holding that solution. -/
theorem solve_spec (g : Grid) (hlen : g.length = 81)
    (hb : ∀ i < 81, 0 ≤ cell g i ∧ cell g i ≤ 9) (hpv : PairwiseValid g) :
    (solve g = (none, g) ↔ ¬∃ e, Completion g e) ∧
    (∀ s rest, solsDet g = s :: rest →
      solve g = (some (exportGame s), s) ∧ Completion g s) := by
  have hsound := sols_sound (fun _ => 0) false 82 0 g 0 hlen hb hpv
    (fun j hj => absurd hj (Nat.not_lt_zero j))
  constructor
  · constructor
    · intro hnone
      rintro ⟨e, he⟩
      have hmem := sols_complete (fun _ => 0) false 82 0 g 0 e (by omega) (by omega) hlen
        (fun j hj => absurd hj (Nat.not_lt_zero j)) he
      cases hL : solsDet g with
      | nil =>
        unfold solsDet at hL
        rw [hL] at hmem
        simp at hmem
      | cons s rest =>
        have hs := (solve_eq g).2 s rest hL
        rw [hs] at hnone
        simp at hnone
    · intro hnex
      cases hL : solsDet g with
      | nil => exact (solve_eq g).1 hL
      | cons s rest =>
        exfalso
        apply hnex
        refine ⟨s, hsound s ?_⟩
        show s ∈ (sols (fun _ => 0) false 82 0 g 0).1
        unfold solsDet at hL
        rw [hL]
        simp
  · intro s rest hL
    refine ⟨(solve_eq g).2 s rest hL, hsound s ?_⟩
    show s ∈ (sols (fun _ => 0) false 82 0 g 0).1
    unfold solsDet at hL
    rw [hL]
    simp

/-- Witness for C5: the grid holding the full solution minus its centre
cell has the full grid as its single enumerated solution, and `solve`
returns its export and leaves the grid holding it. -/
theorem solve_spec_witness :
    solsDet (fullGrid.set 40 0) = [fullGrid] ∧
    solve (fullGrid.set 40 0) = (some (exportGame fullGrid), fullGrid) ∧
    Completion (fullGrid.set 40 0) fullGrid := by
  refine ⟨by decide, ?_⟩
  exact (solve_spec (fullGrid.set 40 0) (by decide) (by decide)
    ((pairwiseValid_iff _).mp (by decide))).2 fullGrid [] (by decide)

lemma cell_initState (i : Nat) : cell initState i = 0 := by
  unfold cell initState
  rw [List.getD_eq_getElem?_getD, List.getElem?_replicate]
  split <;> rfl

lemma pairwiseValid_initState : PairwiseValid initState :=
  fun i _ _ _ _ _ h0i _ => absurd (cell_initState i) h0i

lemma pairwiseValid_set_zero {g : Grid} (h : PairwiseValid g) (a : Nat) :
    PairwiseValid (g.set a 0) := by
  intro i hi j hj hij hsg h0i h0j
  by_cases hai : a = i ∧ a < g.length
  · rw [cell_set, if_pos hai] at h0i
    exact absurd rfl h0i
  · rw [cell_set, if_neg hai] at h0i ⊢
    by_cases haj : a = j ∧ a < g.length
    · rw [cell_set, if_pos haj] at h0j
      exact absurd rfl h0j
    · rw [cell_set, if_neg haj] at h0j ⊢
      exact h i hi j hj hij hsg h0i h0j

lemma drive_countCb : ∀ (L : List Grid) (n : Nat), n ≤ 1 →
    (drive countCb n L).ctx = min (n + L.length) 2 := by
  intro L
  induction L with
  | nil =>
    intro n h
    simp only [drive, List.length_nil]
    omega
  | cons s rest ih =>
    intro n h
    simp only [drive, countCb]
    by_cases hn : n + 1 < 2
    · rw [if_neg (by simp [hn])]
      have := ih (n + 1) (by omega)
      simp only [this, List.length_cons]
      omega
    · rw [if_pos (by simp [hn])]
      simp only [List.length_cons]
      omega

lemma solsLoopF_det {recS recS' : Nat → Grid → Nat → List Grid × Nat}
    (h1 : ∀ i g k k', (recS i g k).1 = (recS' i g k').1) (a : Nat) (g : Grid) :
    ∀ (lst : List Int) (k k' : Nat),
      (solsLoopF recS a g lst k).1 = (solsLoopF recS' a g lst k').1 := by
  intro lst
  induction lst with
  | nil => intro k k'; rfl
  | cons v rest ih =>
    intro k k'
    simp only [solsLoopF]
    rw [h1 (a + 1) (g.set a v) k k', ih _ _]

lemma sols_det_eq (ρ ρ' : Nat → Nat) :
    ∀ (fuel index : Nat) (g : Grid) (k k' : Nat),
      (sols ρ false fuel index g k).1 = (sols ρ' false fuel index g k').1 := by
  intro fuel
  induction fuel with
  | zero => intro index g k k'; rfl
  | succ fuel ih =>
    intro index g k k'
    simp only [sols, Bool.false_eq_true, if_false]
    split
    · rfl
    · exact solsLoopF_det (fun i g2 k2 k2' => ih i g2 k2 k2') _ _ _ _ _

lemma sols_at_full (ρ : Nat → Nat) (random : Bool) (fuel index : Nat) (g : Grid) (k : Nat)
    (ha : advance g index = 81) : sols ρ random (fuel + 1) index g k = ([g], k) := by
  simp only [sols]
  rw [if_pos ha]

lemma solsDet_complete_grid {s : Grid} (hfill : ∀ i < 81, cell s i ≠ 0) :
    solsDet s = [s] := by
  have ha : advance s 0 = 81 := by
    have h1 := (advance_spec s 0).2.1 (by omega)
    have h2 := (advance_spec s 0).2.2.1
    by_contra hne
    exact h2 ⟨by omega, hfill _ (by omega)⟩
  unfold solsDet
  rw [show (82 : Nat) = 81 + 1 from rfl, sols_at_full (fun _ => 0) false 81 0 s 0 ha]

lemma designStep_count (ρ : Nat → Nat) (cur : Grid) (idx1 : Nat) :
    designStep ρ cur idx1 =
      (if (solsDet ((cur.set (80 - idx1) 0).set idx1 0)).length = 1
        then (cur.set (80 - idx1) 0).set idx1 0 else cur) := by
  unfold designStep
  obtain ⟨_, hctx, _, _⟩ :=
    dfsGo_drive ρ false countCb 82 0 ((cur.set (80 - idx1) 0).set idx1 0) 0 0
  rw [hctx, drive_countCb _ 0 (by omega)]
  rw [sols_det_eq ρ (fun _ => 0) 82 0 _ 0 0]
  rw [show (sols (fun _ => 0) false 82 0 ((cur.set (80 - idx1) 0).set idx1 0) 0).1 =
    solsDet ((cur.set (80 - idx1) 0).set idx1 0) from rfl]
  by_cases hone : (solsDet ((cur.set (80 - idx1) 0).set idx1 0)).length = 1
  · rw [if_pos (by omega), if_pos hone]
  · rw [if_neg (by omega), if_neg hone]

lemma cell_two_holes {cur : Grid} (hlen : cur.length = 81) {idx1 : Nat} (h1 : idx1 < 81)
    (j : Nat) :
    cell ((cur.set (80 - idx1) 0).set idx1 0) j =
      if j = idx1 ∨ j = 80 - idx1 then 0 else cell cur j := by
  by_cases hj1 : j = idx1
  · subst hj1
    rw [cell_set_same 0 (by simp; omega), if_pos (Or.inl rfl)]
  · rw [cell_set_other 0 (fun h => hj1 h.symm)]
    by_cases hj2 : j = 80 - idx1
    · subst hj2
      rw [cell_set_same 0 (by omega), if_pos (Or.inr rfl)]
    · rw [cell_set_other 0 (fun h => hj2 h.symm), if_neg (by tauto)]

lemma holed_parts {cur : Grid} {idx1 : Nat} (hidx1 : idx1 < 81) (hlen : cur.length = 81)
    (hb : ∀ i < 81, 0 ≤ cell cur i ∧ cell cur i ≤ 9) (hpv : PairwiseValid cur)
    (hsym : HoleSym cur) :
    ((cur.set (80 - idx1) 0).set idx1 0).length = 81 ∧
    (∀ i < 81, 0 ≤ cell ((cur.set (80 - idx1) 0).set idx1 0) i ∧
      cell ((cur.set (80 - idx1) 0).set idx1 0) i ≤ 9) ∧
    PairwiseValid ((cur.set (80 - idx1) 0).set idx1 0) ∧
    HoleSym ((cur.set (80 - idx1) 0).set idx1 0) := by
  refine ⟨by simp [hlen], ?_, ?_, ?_⟩
  · intro i hi
    rw [cell_two_holes hlen hidx1]
    split
    · omega
    · exact hb i hi
  · exact pairwiseValid_set_zero (pairwiseValid_set_zero hpv _) _
  · intro i hi h0
    rw [cell_two_holes hlen hidx1] at h0
    rw [cell_two_holes hlen hidx1]
    by_cases hcase : 80 - i = idx1 ∨ 80 - i = 80 - idx1
    · rw [if_pos hcase]
    · rw [if_neg hcase]
      have hi_ne : ¬(i = idx1 ∨ i = 80 - idx1) := by
        rintro (rfl | h2)
        · exact hcase (Or.inr rfl)
        · subst h2
          exact hcase (Or.inl (by omega))
      rw [if_neg hi_ne] at h0
      exact hsym i hi h0

lemma designStep_inv (ρ : Nat → Nat) {cur : Grid} {idx1 : Nat} (hidx1 : idx1 < 81)
    (hinv : DesignInv cur) : DesignInv (designStep ρ cur idx1) := by
  obtain ⟨hlen, hb, hpv, huniq, hsym⟩ := hinv
  rw [designStep_count]
  by_cases hone : (solsDet ((cur.set (80 - idx1) 0).set idx1 0)).length = 1
  · rw [if_pos hone]
    obtain ⟨hl2, hb2, hpv2, hs2⟩ := holed_parts hidx1 hlen hb hpv hsym
    exact ⟨hl2, hb2, hpv2, hone, hs2⟩
  · rw [if_neg hone]
    exact ⟨hlen, hb, hpv, huniq, hsym⟩

lemma designLoop_inv (ρ : Nat → Nat) : ∀ (fuel : Nat) (positions : List Nat) (cur : Grid),
    DesignInv cur → (∀ x ∈ positions, x < 81) →
    DesignInv (designLoop ρ fuel cur positions) := by
  intro fuel
  induction fuel with
  | zero => intro _ _ h _; exact h
  | succ fuel ih =>
    intro positions cur hinv hbnd
    simp only [designLoop]
    split
    · exact hinv
    · next idx1 heq =>
      have hidx1 : idx1 < 81 := hbnd idx1 (List.mem_of_getLast?_eq_some heq)
      apply ih
      · exact designStep_inv ρ hidx1 hinv
      · intro x hx
        exact hbnd x (List.dropLast_subset positions (List.erase_subset _ _ hx))

lemma completion_initState_fullGrid : Completion initState fullGrid :=
  ⟨by decide, by decide, (pairwiseValid_iff _).mp (by decide),
    fun i _ hne => absurd (cell_initState i) hne⟩

lemma design_spec (ρ : Nat → Nat) :
    ∃ final : Grid, design ρ = some (exportGame final) ∧ DesignInv final := by
  have hmem := sols_complete ρ true 82 0 initState 0 fullGrid (by omega) (by omega) (by decide)
    (fun j hj => absurd hj (Nat.not_lt_zero j)) completion_initState_fullGrid
  obtain ⟨_, hctx, _, _⟩ := dfsGo_drive ρ true solveCb 82 0 initState (none : Option Grid) 0
  cases hL : (sols ρ true 82 0 initState 0).1 with
  | nil =>
    rw [hL] at hmem
    simp at hmem
  | cons s rest =>
    rw [hL, drive_solveCb_cons] at hctx
    dsimp only at hctx
    have hs : Completion initState s := by
      refine sols_sound ρ true 82 0 initState 0 (by decide) ?_ pairwiseValid_initState
        (fun j hj => absurd hj (Nat.not_lt_zero j)) s ?_
      · intro i _
        rw [cell_initState]
        omega
      · rw [hL]
        simp
    obtain ⟨hslen, hsb, hspv, _⟩ := hs
    have hfill : ∀ i < 81, cell s i ≠ 0 := by
      intro i hi
      have := (hsb i hi).1
      omega
    have hinv_s : DesignInv s := by
      refine ⟨hslen, fun i hi => ⟨by have := (hsb i hi).1; omega, (hsb i hi).2⟩, hspv, ?_, ?_⟩
      · rw [solsDet_complete_grid hfill]
        rfl
      · exact fun i hi h0 => absurd h0 (hfill i hi)
    have hpos : ∀ x ∈ (shuffle ρ (dfsGo ρ true solveCb 82 0 initState none 0).k
        (List.range 81)).1, x < 81 := by
      intro x hx
      have := (shuffle_perm ρ _ (List.range 81)).mem_iff.mp hx
      simpa using this
    refine ⟨designLoop ρ 81 s (shuffle ρ (dfsGo ρ true solveCb 82 0 initState none 0).k
      (List.range 81)).1, ?_, ?_⟩
    · unfold design
      simp only []
      rw [hctx]
    · exact designLoop_inv ρ 81 _ s hinv_s hpos

/-- C3: `design` always succeeds and its output denotes a uniquely
solvable puzzle: re-importing it succeeds, the imported grid has exactly
one completed assignment, and running the uniqueness check (`findAll`
with a counter stopping at a second solution) on it counts exactly 1 —
for every sequence of random draws. -/
theorem design_uniquely_solvable (ρ : Nat → Nat) :
    ∃ (out : List Char) (g' : Grid), design ρ = some out ∧
      importGame initState out = (true, g') ∧ uniquenessCount g' = 1 ∧
      ∃! e, Completion g' e := by
  obtain ⟨final, hdes, hinv⟩ := design_spec ρ
  obtain ⟨hlen, hb, hpv, huniq, _⟩ := hinv
  refine ⟨exportGame final, final, hdes, export_import_roundtrip hlen hb hpv initState, ?_, ?_⟩
  · unfold uniquenessCount findAll
    obtain ⟨_, hctx, _, _⟩ := dfsGo_drive (fun _ => 0) false countCb 82 0 final 0 0
    rw [hctx, drive_countCb _ 0 (by omega)]
    rw [show (sols (fun _ => 0) false 82 0 final 0).1 = solsDet final from rfl]
    omega
  · obtain ⟨s0, hs0⟩ : ∃ s0, solsDet final = [s0] := by
      cases h : solsDet final with
      | nil => rw [h] at huniq; cases huniq
      | cons a t =>
        rw [h] at huniq
        simp only [List.length_cons] at huniq
        have ht : t = [] := List.length_eq_zero.mp (by omega)
        exact ⟨a, by rw [ht]⟩
    have hs0c : Completion final s0 := by
      refine sols_sound (fun _ => 0) false 82 0 final 0 hlen hb hpv
        (fun j hj => absurd hj (Nat.not_lt_zero j)) s0 ?_
      show s0 ∈ (sols (fun _ => 0) false 82 0 final 0).1
      rw [show (sols (fun _ => 0) false 82 0 final 0).1 = solsDet final from rfl, hs0]
      simp
    refine ⟨s0, hs0c, ?_⟩
    intro e he
    have hmem := sols_complete (fun _ => 0) false 82 0 final 0 e (by omega) (by omega) hlen
      (fun j hj => absurd hj (Nat.not_lt_zero j)) he
    rw [show (sols (fun _ => 0) false 82 0 final 0).1 = solsDet final from rfl, hs0] at hmem
    simpa using hmem

lemma digit_char_ne_dot2 {v : Int} (h1 : 1 ≤ v) (h9 : v ≤ 9) :
    Char.ofNat (48 + v.toNat) ≠ '.' := by
  interval_cases v <;> decide

lemma exportGame_getD {g : Grid} (hlen : g.length = 81)
    (hb : ∀ i < 81, 0 ≤ cell g i ∧ cell g i ≤ 9) {i : Nat} (hi : i < 81) :
    (exportGame g).getD i ' ' =
      if cell g i = 0 then '.' else Char.ofNat (48 + (cell g i).toNat) := by
  rw [exportGame_eq_map (cells_mem_of_bounds hlen hb)]
  rw [List.getD_eq_getElem?_getD, List.getElem?_map,
    List.getElem?_eq_getElem (show i < g.length by omega)]
  rw [cell_eq_getElem (show i < g.length by omega)]
  rfl

/-- C4: `design`'s output is palindromically paired for every sequence
of random draws: whenever the character at `idx` is a hole, so is the
character at `80 - idx` (index 40 being its own partner). -/
theorem design_symmetric (ρ : Nat → Nat) :
    ∃ out, design ρ = some out ∧ symPaired out = true := by
  obtain ⟨final, hdes, hinv⟩ := design_spec ρ
  obtain ⟨hlen, hb, hpv, _, hsym⟩ := hinv
  refine ⟨exportGame final, hdes, ?_⟩
  unfold symPaired
  rw [List.all_eq_true]
  intro idx hidx
  rw [List.mem_range] at hidx
  by_cases h0 : cell final idx = 0
  · have hpartner : cell final (80 - idx) = 0 := hsym idx hidx h0
    rw [exportGame_getD hlen hb hidx, exportGame_getD hlen hb (show 80 - idx < 81 by omega),
      if_pos h0, if_pos hpartner]
    simp
  · rw [exportGame_getD hlen hb hidx, if_neg h0]
    have hne : Char.ofNat (48 + (cell final idx).toNat) ≠ '.' := by
      have hb1 := hb idx hidx
      exact digit_char_ne_dot2 (by omega) hb1.2
    simp [hne]

end SudokuJS
